import Mathlib

/-!
Verification of the `QNN-hack` decomposition test driver
(`src/test_decomposition.py`) against its specification.

The circuit evaluator `gates_to_matrix`, the inverse-circuit construction
`reverse_and_negate` (the `V_dagger_circuit` computation of lines 111-116),
and the accuracy metrics `difference` / `relative_error` / `is_accurate`
(lines 124-131) are shallowly embedded from the Python source.  The Walsh
synthesizer `build_optimal_walsh_circuit` is imported by the source from a
module that is not part of the repository snapshot; it is modelled from the
specification (see its doc comment below).

Modelling conventions: numpy `complex128` / `float64` values are modelled as
`ℂ` / `ℝ`, and ε-approximate statements of the specification are settled as
exact equalities over `ℂ`.

One deliberate divergence of the embedding from the Python source: for a
`CNOT` gate whose target index is out of range (`target ≥ num_qubits`) and
whose control bit is set in some column, numpy raises an `IndexError`
(assignment `cnot[j, i] = 1` with `j ≥ dim`), while the total function
`gateMatrix` below returns a matrix with a zero column there.  No theorem in
this file depends on that case.
-/

/-- A gate of the evaluator's gate set.  In the source a gate is a
`(gate_type, params)` tuple, `("CNOT", (control, target))` or
`("RZ", (angle, qubit))`. -/
inductive Gate
  | CNOT (control target : ℕ)
  | RZ (angle : ℝ) (qubit : ℕ)

/-- `bitAt x k` is the Python expression `(x >> k) & 1`. -/
def bitAt (x k : ℕ) : ℕ := (x >>> k) &&& 1

/-- The matrix the evaluator builds for a single gate (the loop body of
`gates_to_matrix`, lines 35-56 of `test_decomposition.py`).  For `CNOT`:
start from the identity and, for every column `i` whose control bit is 1,
set entry `(i, i)` to `0` and entry `(i ^ (1 << target), i)` to `1`.  For
`RZ`: the diagonal matrix with entry `exp(-1j*angle/2)` where the qubit bit
is 1 and `exp(1j*angle/2)` where it is 0. -/
noncomputable def gateMatrix (n : ℕ) : Gate → Matrix (Fin (2 ^ n)) (Fin (2 ^ n)) ℂ
  | .CNOT control target => fun r i =>
      if bitAt i.val control = 1 then
        (if r.val = i.val ^^^ (1 <<< target) then 1 else 0)
      else (if r = i then 1 else 0)
  | .RZ angle qubit => fun r i =>
      if r = i then
        (if bitAt i.val qubit = 1 then Complex.exp (-(Complex.I * angle) / 2)
         else Complex.exp ((Complex.I * angle) / 2))
      else 0

/-- `gates_to_matrix` (lines 20-58): start from the identity and left-multiply
each gate's matrix in list order (`matrix = gate_matrix @ matrix`). -/
noncomputable def gates_to_matrix (circuit : List Gate) (num_qubits : ℕ) :
    Matrix (Fin (2 ^ num_qubits)) (Fin (2 ^ num_qubits)) ℂ :=
  circuit.foldl (fun m g => gateMatrix num_qubits g * m) 1

/-- Negation of one gate as in lines 113-116: `CNOT` parameters unchanged,
`RZ` angle negated. -/
def Gate.dagger : Gate → Gate
  | .CNOT control target => .CNOT control target
  | .RZ angle qubit => .RZ (-angle) qubit

/-- The `V_dagger_circuit` construction (lines 111-116): reverse the gate
list, then negate every `RZ` angle, leaving `CNOT` gates unchanged. -/
def reverse_and_negate (circuit : List Gate) : List Gate :=
  circuit.reverse.map Gate.dagger

/-- The claims' well-formedness condition on a gate: qubit indices in
`[0, n)` and, for `CNOT`, control distinct from target. -/
def Gate.valid (n : ℕ) : Gate → Prop
  | .CNOT control target => control < n ∧ target < n ∧ control ≠ target
  | .RZ _ qubit => qubit < n

/-- All gates of a circuit well formed for `n` qubits. -/
def validCircuit (n : ℕ) (circuit : List Gate) : Prop :=
  ∀ g ∈ circuit, g.valid n

/-- Targets of all CNOT gates in range: exactly what is needed for the
basis-state simulation of the evaluator to track the matrix product. -/
def Gate.targetOk (n : ℕ) : Gate → Prop
  | .CNOT _ target => target < n
  | .RZ _ _ => True

/-- Condition under which a single gate's matrix is unitary: a `CNOT` needs
its target in range and its control distinct from its target (the control
index itself may even be out of range); an `RZ` always is. -/
def Gate.unitaryOk (n : ℕ) : Gate → Prop
  | .CNOT control target => target < n ∧ control ≠ target
  | .RZ _ _ => True

/-- Where a single gate sends the basis state with index `x`: a `CNOT`
flips the target bit when the control bit is 1, an `RZ` leaves it alone. -/
def gatePerm : Gate → ℕ → ℕ
  | .CNOT control target, x => if bitAt x control = 1 then x ^^^ (1 <<< target) else x
  | .RZ _ _, x => x

/-- The phase a single gate puts on the basis state with index `x`. -/
noncomputable def gatePhase : Gate → ℕ → ℂ
  | .CNOT _ _, _ => 1
  | .RZ angle qubit, x =>
      if bitAt x qubit = 1 then Complex.exp (-(Complex.I * angle) / 2)
      else Complex.exp ((Complex.I * angle) / 2)

/-- Basis-state index after running a whole circuit, first listed gate
first. -/
def circPerm : List Gate → ℕ → ℕ
  | [], x => x
  | g :: c, x => circPerm c (gatePerm g x)

/-- Accumulated phase after running a whole circuit on basis state `x`,
first listed gate first. -/
noncomputable def circPhase : List Gate → ℕ → ℂ
  | [], _ => 1
  | g :: c, x => gatePhase g x * circPhase c (gatePerm g x)

/-- The matrix that sends each basis vector `e_x` to `φ x • e_{σ x}`. -/
noncomputable def simMatrix (n : ℕ) (σ : ℕ → ℕ) (φ : ℕ → ℂ) :
    Matrix (Fin (2 ^ n)) (Fin (2 ^ n)) ℂ :=
  fun r i => if r.val = σ i.val then φ i.val else 0

/-- The basis index with bit `t` flipped (`i ^ (1 << target)` of line 42),
as an index of `Fin (2 ^ n)`. -/
def flipBit (n t : ℕ) (ht : t < n) (i : Fin (2 ^ n)) : Fin (2 ^ n) :=
  ⟨i.val ^^^ (1 <<< t), by
    rw [Nat.shiftLeft_eq, one_mul]
    exact Nat.xor_lt_two_pow i.isLt (Nat.pow_lt_pow_right (by norm_num) ht)⟩

/-- `subsetParity L x` is the xor of the bits of `x` at the positions listed
in `L`. -/
def subsetParity (L : List ℕ) (x : ℕ) : Bool :=
  L.foldr (fun j b => xor (x.testBit j) b) false

/-- Positions of the set bits of `s` below `n`, in increasing order. -/
def bitIndices (n s : ℕ) : List ℕ :=
  (List.range n).filter (fun j => s.testBit j)

/-- Modelled from the spec: the Walsh-function basis element for the bit
subset `s`, evaluated at basis index `x` — the sign `(-1)^(x·s)` of the
parity of the bits of `x` selected by `s` ("each basis function corresponds
to a subset of qubits (a parity of a subset of bits)"). -/
def walshChar (n s x : ℕ) : ℝ :=
  if subsetParity (bitIndices n s) x then -1 else 1

/-- Modelled from the spec: the Walsh coefficient of the phase-angle vector
`θ` at subset `s` (the Hadamard-transform-like basis expansion of "the
vector of diagonal phase angles"). -/
noncomputable def walshCoeff (n : ℕ) (θ : ℕ → ℝ) (s : ℕ) : ℝ :=
  (∑ x ∈ Finset.range (2 ^ n), θ x * walshChar n s x) / 2 ^ n

/-- Modelled from the spec: the gate block for one non-trivial subset-parity
term `s`: "a CNOT staircase" routing the parity of the bits of `s` onto the
designated qubit (the lowest set bit of `s`), "one phase rotation" by twice
the Walsh coefficient, "and the mirrored CNOT staircase back out". -/
noncomputable def walshBlock (n : ℕ) (θ : ℕ → ℝ) (s : ℕ) : List Gate :=
  match bitIndices n s with
  | [] => []
  | q :: rest =>
      (rest.map (fun j => Gate.CNOT j q)) ++ [Gate.RZ (2 * walshCoeff n θ s) q]
        ++ ((rest.reverse).map (fun j => Gate.CNOT j q))

/-- Modelled from the spec: `build_optimal_walsh_circuit` for a diagonal
unitary `D = diag (exp (I * θ x))`, the synthesizer from the module
`walsh_circuit_decomposition` that is missing from the repository snapshot.
It decomposes the vector of diagonal phase angles in the Walsh basis and
emits one staircase/rotation/staircase block per non-trivial subset
`s ∈ [1, 2^n)`; "the number of independent phase angles to reproduce equals
2^n − 1 (global phase is unobservable and may be dropped)". -/
noncomputable def build_optimal_walsh_circuit (n : ℕ) (θ : ℕ → ℝ) : List Gate :=
  ((List.range (2 ^ n)).drop 1).flatMap (walshBlock n θ)

/-- Line 124 of the source:
`difference = np.max(np.abs(U_original_np - U_reconstructed))`. -/
noncomputable def difference (n : ℕ) (U V : Matrix (Fin (2 ^ n)) (Fin (2 ^ n)) ℂ) : ℝ :=
  Finset.univ.sup' Finset.univ_nonempty
    (fun p : Fin (2 ^ n) × Fin (2 ^ n) => Complex.abs (U p.1 p.2 - V p.1 p.2))

/-- The maximum entry magnitude `np.max(np.abs(M))` (denominator of line
125). -/
noncomputable def max_abs (n : ℕ) (U : Matrix (Fin (2 ^ n)) (Fin (2 ^ n)) ℂ) : ℝ :=
  Finset.univ.sup' Finset.univ_nonempty
    (fun p : Fin (2 ^ n) × Fin (2 ^ n) => Complex.abs (U p.1 p.2))

/-- Line 125: `relative_error = difference / np.max(np.abs(U_original_np))`. -/
noncomputable def relative_error (n : ℕ)
    (U V : Matrix (Fin (2 ^ n)) (Fin (2 ^ n)) ℂ) : ℝ :=
  difference n U V / max_abs n U

/-- Line 131: `is_accurate = difference < 1e-6`. -/
def is_accurate (n : ℕ) (U V : Matrix (Fin (2 ^ n)) (Fin (2 ^ n)) ℂ) : Prop :=
  difference n U V < 1e-6

theorem gates_to_matrix_nil (n : ℕ) : gates_to_matrix [] n = 1 := rfl

theorem gates_to_matrix_foldl (c : List Gate) (n : ℕ)
    (A : Matrix (Fin (2 ^ n)) (Fin (2 ^ n)) ℂ) :
    c.foldl (fun m g => gateMatrix n g * m) A = gates_to_matrix c n * A := by
  induction c generalizing A with
  | nil => simp [gates_to_matrix_nil]
  | cons g c ih =>
      have h1 : gates_to_matrix (g :: c) n = gates_to_matrix c n * (gateMatrix n g * 1) := by
        show c.foldl (fun m g => gateMatrix n g * m) (gateMatrix n g * 1) = _
        exact ih _
      rw [List.foldl_cons, ih, h1, Matrix.mul_one, Matrix.mul_assoc]

theorem gates_to_matrix_cons (g : Gate) (c : List Gate) (n : ℕ) :
    gates_to_matrix (g :: c) n = gates_to_matrix c n * gateMatrix n g := by
  rw [show gates_to_matrix (g :: c) n =
    c.foldl (fun m g => gateMatrix n g * m) (gateMatrix n g * 1) from rfl,
    gates_to_matrix_foldl]
  simp

theorem gates_to_matrix_append (c₁ c₂ : List Gate) (n : ℕ) :
    gates_to_matrix (c₁ ++ c₂) n = gates_to_matrix c₂ n * gates_to_matrix c₁ n := by
  induction c₁ with
  | nil => simp [gates_to_matrix_nil]
  | cons g c ih =>
      rw [List.cons_append, gates_to_matrix_cons, gates_to_matrix_cons, ih,
        Matrix.mul_assoc]

/-- The evaluator computes the reversed-order product of the individual gate
matrices. -/
theorem gates_to_matrix_eq_prod (c : List Gate) (n : ℕ) :
    gates_to_matrix c n = ((c.map (gateMatrix n)).reverse).prod := by
  induction c with
  | nil => simp [gates_to_matrix_nil]
  | cons g c ih =>
      rw [gates_to_matrix_cons, ih]
      simp [List.prod_append]

theorem bitAt_eq (x k : ℕ) : bitAt x k = if x.testBit k then 1 else 0 := by
  rw [bitAt, Nat.and_one_is_mod, Nat.shiftRight_eq_div_pow, Nat.testBit_to_div_mod]
  rcases Nat.mod_two_eq_zero_or_one (x / 2 ^ k) with h | h <;> simp [h]

theorem testBit_xor_shift (x t c : ℕ) (h : c ≠ t) :
    (x ^^^ (1 <<< t)).testBit c = x.testBit c := by
  rw [Nat.shiftLeft_eq, one_mul, Nat.testBit_xor,
    Nat.testBit_two_pow_of_ne (Ne.symm h), Bool.xor_false]

theorem gateMatrix_eq_sim (n : ℕ) (g : Gate) :
    gateMatrix n g = simMatrix n (gatePerm g) (gatePhase g) := by
  cases g with
  | CNOT control target =>
      funext r i
      by_cases h : bitAt i.val control = 1 <;>
        simp [gateMatrix, simMatrix, gatePerm, gatePhase, h, Fin.val_eq_val]
  | RZ angle qubit =>
      funext r i
      by_cases h : r = i
      · simp [gateMatrix, simMatrix, gatePerm, gatePhase, h]
      · have hv : ¬ (r.val = i.val) := by simpa [Fin.val_eq_val] using h
        simp [gateMatrix, simMatrix, gatePerm, gatePhase, h, hv]

theorem simMatrix_mul (n : ℕ) (σ₁ σ₂ : ℕ → ℕ) (φ₁ φ₂ : ℕ → ℂ)
    (h : ∀ x, x < 2 ^ n → σ₁ x < 2 ^ n) :
    simMatrix n σ₂ φ₂ * simMatrix n σ₁ φ₁ =
      simMatrix n (fun x => σ₂ (σ₁ x)) (fun x => φ₁ x * φ₂ (σ₁ x)) := by
  funext r i
  have hk : σ₁ i.val < 2 ^ n := h _ i.isLt
  rw [Matrix.mul_apply, Finset.sum_eq_single (⟨σ₁ i.val, hk⟩ : Fin (2 ^ n))]
  · by_cases hr : r.val = σ₂ (σ₁ i.val)
    · simp [simMatrix, hr]; ring
    · simp [simMatrix, hr]
  · intro k _ hne
    have hkv : ¬ (k.val = σ₁ i.val) := fun hh => hne (Fin.ext hh)
    simp [simMatrix, hkv]
  · intro hmem; exact absurd (Finset.mem_univ _) hmem

theorem gatePerm_lt (n : ℕ) (g : Gate) (hg : g.targetOk n) (x : ℕ) (hx : x < 2 ^ n) :
    gatePerm g x < 2 ^ n := by
  cases g with
  | RZ angle qubit => simpa [gatePerm] using hx
  | CNOT control target =>
      simp only [gatePerm]
      split
      · exact Nat.xor_lt_two_pow hx (by
          rw [Nat.shiftLeft_eq, one_mul]
          exact Nat.pow_lt_pow_right (by norm_num) hg)
      · exact hx

/-- Master simulation lemma: as long as every CNOT target is in range, the
evaluator's matrix acts on basis vectors exactly as the classical
(permutation, phase) simulation of the circuit. -/
theorem gates_to_matrix_eq_sim (c : List Gate) (n : ℕ)
    (h : ∀ g ∈ c, g.targetOk n) :
    gates_to_matrix c n = simMatrix n (circPerm c) (circPhase c) := by
  induction c with
  | nil =>
      funext r i
      simp [gates_to_matrix_nil, simMatrix, circPerm, circPhase,
        Matrix.one_apply, Fin.val_eq_val]
  | cons g c ih =>
      have hg : g.targetOk n := h g (List.mem_cons_self g c)
      rw [gates_to_matrix_cons, ih (fun g' hgm => h g' (List.mem_cons_of_mem _ hgm)),
        gateMatrix_eq_sim, simMatrix_mul n _ _ _ _ (gatePerm_lt n g hg)]
      rfl

theorem simMatrix_mulVec_single (n : ℕ) (σ : ℕ → ℕ) (φ : ℕ → ℂ) (i : Fin (2 ^ n)) :
    (simMatrix n σ φ).mulVec (fun j => if j = i then 1 else 0) =
      fun r => if r.val = σ i.val then φ i.val else 0 := by
  funext r
  simp only [Matrix.mulVec, Matrix.dotProduct, mul_ite, mul_one, mul_zero]
  rw [Finset.sum_ite_eq' Finset.univ i]
  simp [simMatrix]

theorem Gate.unitaryOk.toTargetOk {n : ℕ} {g : Gate} (h : g.unitaryOk n) :
    g.targetOk n := by
  cases g with
  | CNOT control target => exact h.1
  | RZ angle qubit => trivial

theorem gatePerm_involutive (n : ℕ) (g : Gate) (hg : g.unitaryOk n) (x : ℕ) :
    gatePerm g (gatePerm g x) = x := by
  cases g with
  | RZ angle qubit => rfl
  | CNOT control target =>
      obtain ⟨ht, hne⟩ := hg
      have hb : ∀ y : ℕ, bitAt (y ^^^ (1 <<< target)) control = bitAt y control := by
        intro y
        rw [bitAt_eq, bitAt_eq, testBit_xor_shift y target control hne]
      simp only [gatePerm]
      by_cases h : bitAt x control = 1
      · rw [if_pos h, if_pos (by rw [hb]; exact h), Nat.xor_assoc, Nat.xor_self,
          Nat.xor_zero]
      · rw [if_neg h, if_neg h]

theorem gatePerm_injective (n : ℕ) (g : Gate) (hg : g.unitaryOk n) {x y : ℕ}
    (h : gatePerm g x = gatePerm g y) : x = y := by
  have := congrArg (gatePerm g) h
  rwa [gatePerm_involutive n g hg, gatePerm_involutive n g hg] at this

theorem circPerm_injective (n : ℕ) (c : List Gate) (h : ∀ g ∈ c, g.unitaryOk n)
    {x y : ℕ} (hxy : circPerm c x = circPerm c y) : x = y := by
  induction c generalizing x y with
  | nil => exact hxy
  | cons g c ih =>
      exact gatePerm_injective n g (h g (List.mem_cons_self g c))
        (ih (fun g' hg' => h g' (List.mem_cons_of_mem _ hg')) hxy)

theorem circPerm_lt (n : ℕ) (c : List Gate) (h : ∀ g ∈ c, g.targetOk n)
    (x : ℕ) (hx : x < 2 ^ n) : circPerm c x < 2 ^ n := by
  induction c generalizing x with
  | nil => exact hx
  | cons g c ih =>
      exact ih (fun g' hg' => h g' (List.mem_cons_of_mem _ hg'))
        _ (gatePerm_lt n g (h g (List.mem_cons_self g c)) x hx)

theorem abs_gatePhase (g : Gate) (x : ℕ) : Complex.abs (gatePhase g x) = 1 := by
  cases g with
  | CNOT control target => simp [gatePhase]
  | RZ angle qubit =>
      have h₁ : -(Complex.I * (angle : ℂ)) / 2 = ((-angle / 2 : ℝ) : ℂ) * Complex.I := by
        push_cast; ring
      have h₂ : (Complex.I * (angle : ℂ)) / 2 = ((angle / 2 : ℝ) : ℂ) * Complex.I := by
        push_cast; ring
      by_cases h : bitAt x qubit = 1
      · simp only [gatePhase]
        rw [if_pos h, h₁, Complex.abs_exp_ofReal_mul_I]
      · simp only [gatePhase]
        rw [if_neg h, h₂, Complex.abs_exp_ofReal_mul_I]

theorem abs_circPhase (c : List Gate) (x : ℕ) : Complex.abs (circPhase c x) = 1 := by
  induction c generalizing x with
  | nil => simp [circPhase]
  | cons g c ih => simp [circPhase, map_mul, abs_gatePhase, ih]

/-- Any circuit whose CNOT gates have in-range targets and distinct
control/target evaluates to a unitary matrix (exactly). -/
theorem gates_to_matrix_unitary (c : List Gate) (n : ℕ)
    (h : ∀ g ∈ c, g.unitaryOk n) :
    gates_to_matrix c n * (gates_to_matrix c n).conjTranspose = 1 := by
  have htgt : ∀ g ∈ c, g.targetOk n := fun g hg => (h g hg).toTargetOk
  rw [gates_to_matrix_eq_sim c n htgt]
  have hlt : ∀ i : Fin (2 ^ n), circPerm c i.val < 2 ^ n :=
    fun i => circPerm_lt n c htgt i.val i.isLt
  have hinj : Function.Injective
      (fun i : Fin (2 ^ n) => (⟨circPerm c i.val, hlt i⟩ : Fin (2 ^ n))) := by
    intro a b hab
    exact Fin.ext (circPerm_injective n c h (congrArg Fin.val hab))
  have hbij := Finite.injective_iff_bijective.mp hinj
  set e := Equiv.ofBijective _ hbij with he
  have hperm : ∀ k : Fin (2 ^ n), circPerm c k.val = (e k).val := fun k => rfl
  funext r r'
  have hk0 : circPerm c (e.symm r).val = r.val := by
    rw [hperm, e.apply_symm_apply]
  rw [Matrix.mul_apply, Finset.sum_eq_single (e.symm r)]
  · rw [Matrix.conjTranspose_apply, Matrix.one_apply]
    by_cases hrr : r = r'
    · subst hrr
      simp only [simMatrix, hk0, eq_self_iff_true, if_true]
      have habs := abs_circPhase c (e.symm r).val
      rw [show (star (circPhase c (e.symm r).val) : ℂ) =
            (starRingEnd ℂ) (circPhase c (e.symm r).val) from rfl,
        Complex.mul_conj, Complex.normSq_eq_abs, habs]
      norm_num
    · have hv : ¬ (r'.val = circPerm c (e.symm r).val) := by
        rw [hk0]; exact fun hv => hrr (Fin.ext hv).symm
      simp only [simMatrix]
      rw [if_neg hv, if_neg hrr, star_zero, mul_zero]
  · intro k _ hkne
    have hv : ¬ (r.val = circPerm c k.val) := by
      intro hv
      apply hkne
      have hek : e k = r := Fin.ext (by rw [← hperm]; exact hv.symm)
      rw [← hek, Equiv.symm_apply_apply]
    simp [simMatrix, hv]
  · intro hmem; exact absurd (Finset.mem_univ _) hmem

theorem cnot_conjTranspose (n control target : ℕ) (hne : control ≠ target) :
    (gateMatrix n (Gate.CNOT control target)).conjTranspose =
      gateMatrix n (Gate.CNOT control target) := by
  have hx : ∀ a b : ℕ, (a = b ^^^ (1 <<< target) ↔ b = a ^^^ (1 <<< target)) := by
    intro a b
    constructor
    · intro hh; rw [hh, Nat.xor_assoc, Nat.xor_self, Nat.xor_zero]
    · intro hh; rw [hh, Nat.xor_assoc, Nat.xor_self, Nat.xor_zero]
  have hbit : ∀ a : ℕ, bitAt (a ^^^ (1 <<< target)) control = bitAt a control := by
    intro a; rw [bitAt_eq, bitAt_eq, testBit_xor_shift a target control hne]
  funext r i
  rw [Matrix.conjTranspose_apply]
  simp only [gateMatrix]
  by_cases hcr : bitAt r.val control = 1 <;> by_cases hci : bitAt i.val control = 1
  · rw [if_pos hcr, if_pos hci]
    by_cases hir : i.val = r.val ^^^ (1 <<< target)
    · rw [if_pos hir, if_pos ((hx _ _).mp hir)]; simp
    · rw [if_neg hir, if_neg (fun hh => hir ((hx _ _).mp hh))]; simp
  · rw [if_pos hcr, if_neg hci]
    have h1 : ¬ (i.val = r.val ^^^ (1 <<< target)) := by
      intro hh
      apply hci
      rw [hh, hbit]; exact hcr
    have h2 : ¬ (r = i) := by
      intro hh; rw [hh] at hcr; exact hci hcr
    rw [if_neg h1, if_neg h2]
    simp
  · rw [if_neg hcr, if_pos hci]
    have h1 : ¬ (i = r) := by
      intro hh; rw [hh] at hci; exact hcr hci
    have h2 : ¬ (r.val = i.val ^^^ (1 <<< target)) := by
      intro hh
      apply hcr
      rw [hh, hbit]; exact hci
    rw [if_neg h1, if_neg h2]
    simp
  · rw [if_neg hcr, if_neg hci]
    by_cases hir : i = r
    · rw [if_pos hir, if_pos hir.symm]; simp
    · rw [if_neg hir, if_neg (fun hh => hir hh.symm)]; simp

theorem rz_conjTranspose (n : ℕ) (angle : ℝ) (qubit : ℕ) :
    (gateMatrix n (Gate.RZ angle qubit)).conjTranspose =
      gateMatrix n (Gate.RZ (-angle) qubit) := by
  funext r i
  rw [Matrix.conjTranspose_apply]
  simp only [gateMatrix]
  by_cases h : i = r
  · subst h
    rw [if_pos rfl, if_pos rfl]
    by_cases hb : bitAt i.val qubit = 1
    · rw [if_pos hb, if_pos hb,
        show (star (Complex.exp (-(Complex.I * (angle : ℂ)) / 2)) : ℂ) =
          (starRingEnd ℂ) (Complex.exp (-(Complex.I * (angle : ℂ)) / 2)) from rfl,
        ← Complex.exp_conj]
      congr 1
      simp only [map_div₀, map_neg, map_mul, Complex.conj_I, Complex.conj_ofReal,
        map_ofNat]
      push_cast
      ring
    · rw [if_neg hb, if_neg hb,
        show (star (Complex.exp ((Complex.I * (angle : ℂ)) / 2)) : ℂ) =
          (starRingEnd ℂ) (Complex.exp ((Complex.I * (angle : ℂ)) / 2)) from rfl,
        ← Complex.exp_conj]
      congr 1
      simp only [map_div₀, map_neg, map_mul, Complex.conj_I, Complex.conj_ofReal,
        map_ofNat]
      push_cast
      ring
  · rw [if_neg h, if_neg (fun hh => h hh.symm)]
    simp

theorem gateMatrix_dagger (n : ℕ) (g : Gate) (hg : g.valid n) :
    gateMatrix n g.dagger = (gateMatrix n g).conjTranspose := by
  cases g with
  | CNOT control target =>
      rw [Gate.dagger, cnot_conjTranspose n control target hg.2.2]
  | RZ angle qubit =>
      rw [Gate.dagger, rz_conjTranspose n angle qubit]

/-- The reverse-and-negate transform evaluates to the conjugate transpose. -/
theorem reverse_and_negate_eval (c : List Gate) (n : ℕ) (h : validCircuit n c) :
    gates_to_matrix (reverse_and_negate c) n = (gates_to_matrix c n).conjTranspose := by
  rw [gates_to_matrix_eq_prod, gates_to_matrix_eq_prod, Matrix.conjTranspose_list_prod,
    reverse_and_negate, List.map_map, List.map_reverse, List.reverse_reverse,
    List.map_reverse, List.reverse_reverse, List.map_map]
  exact congrArg List.prod (List.map_congr_left fun g hg =>
    gateMatrix_dagger n g (h g hg))

theorem subsetParity_nil (x : ℕ) : subsetParity [] x = false := rfl

theorem subsetParity_cons (j : ℕ) (L : List ℕ) (x : ℕ) :
    subsetParity (j :: L) x = xor (x.testBit j) (subsetParity L x) := rfl

theorem foldr_xor_init (L : List ℕ) (x : ℕ) (b : Bool) :
    L.foldr (fun j acc => xor (x.testBit j) acc) b = xor (subsetParity L x) b := by
  induction L with
  | nil => simp [subsetParity]
  | cons j L ih => simp [subsetParity_cons, List.foldr_cons, ih, Bool.xor_assoc]

theorem subsetParity_append (L₁ L₂ : List ℕ) (x : ℕ) :
    subsetParity (L₁ ++ L₂) x = xor (subsetParity L₁ x) (subsetParity L₂ x) := by
  rw [subsetParity, List.foldr_append]
  exact foldr_xor_init L₁ x (subsetParity L₂ x)

theorem subsetParity_reverse (L : List ℕ) (x : ℕ) :
    subsetParity L.reverse x = subsetParity L x := by
  induction L with
  | nil => rfl
  | cons j L ih =>
      rw [List.reverse_cons, subsetParity_append, ih, subsetParity_cons j [] x,
        subsetParity_nil, Bool.xor_false, subsetParity_cons]
      exact Bool.xor_comm _ _

theorem subsetParity_map_succ (L : List ℕ) (x : ℕ) :
    subsetParity (L.map Nat.succ) x = subsetParity L (x / 2) := by
  induction L with
  | nil => rfl
  | cons j L ih =>
      rw [List.map_cons, subsetParity_cons, subsetParity_cons, ih, Nat.testBit_succ]

theorem subsetParity_congr (L : List ℕ) (x y : ℕ)
    (h : ∀ j ∈ L, x.testBit j = y.testBit j) :
    subsetParity L x = subsetParity L y := by
  induction L with
  | nil => rfl
  | cons j L ih =>
      rw [subsetParity_cons, subsetParity_cons, h j (List.mem_cons_self j L),
        ih (fun j' hj' => h j' (List.mem_cons_of_mem _ hj'))]

theorem bitIndices_zero (n : ℕ) : bitIndices n 0 = [] := by
  rw [bitIndices]
  apply List.filter_eq_nil_iff.mpr
  intro a _
  simp [Nat.zero_testBit]

theorem mem_bitIndices {n s j : ℕ} :
    j ∈ bitIndices n s ↔ j < n ∧ s.testBit j := by
  simp [bitIndices, List.mem_filter, List.mem_range]

theorem bitIndices_pairwise (n s : ℕ) : (bitIndices n s).Pairwise (· < ·) :=
  List.Pairwise.filter _ (List.pairwise_lt_range n)

theorem bitIndices_succ (n s : ℕ) :
    bitIndices (n + 1) s =
      (if s.testBit 0 then [0] else []) ++ (bitIndices n (s / 2)).map Nat.succ := by
  rw [bitIndices, List.range_succ_eq_map, List.filter_cons, List.filter_map]
  have hc : (fun j => s.testBit j) ∘ Nat.succ = fun j => (s / 2).testBit j := by
    funext j
    simp [Function.comp, Nat.testBit_succ]
  rw [hc]
  by_cases h : s.testBit 0
  · simp [h, bitIndices]
  · simp [h, bitIndices]

theorem bitIndices_ne_nil (n s : ℕ) (h1 : 1 ≤ s) (h2 : s < 2 ^ n) :
    bitIndices n s ≠ [] := by
  intro hnil
  have hall : ∀ j, s.testBit j = false := by
    intro j
    by_cases hj : j < n
    · have := List.filter_eq_nil_iff.mp hnil j (List.mem_range.mpr hj)
      simpa using this
    · exact Nat.testBit_lt_two_pow
        (lt_of_lt_of_le h2 (Nat.pow_le_pow_right (by norm_num) (le_of_not_lt hj)))
  have hz : s = 0 := Nat.eq_of_testBit_eq (fun i => by rw [hall i, Nat.zero_testBit])
  omega

theorem walshChar_zero (n x : ℕ) : walshChar n 0 x = 1 := by
  rw [walshChar, bitIndices_zero, subsetParity_nil]
  simp

theorem walshChar_succ (n s x : ℕ) :
    walshChar (n + 1) s x =
      (if s.testBit 0 && x.testBit 0 then (-1 : ℝ) else 1) *
        walshChar n (s / 2) (x / 2) := by
  rw [walshChar, walshChar, bitIndices_succ, subsetParity_append, subsetParity_map_succ]
  by_cases hs : s.testBit 0
  · by_cases hx : x.testBit 0 <;>
      by_cases hp : subsetParity (bitIndices n (s / 2)) (x / 2) <;>
        simp [hs, hx, hp, subsetParity_cons, subsetParity_nil]
  · by_cases hp : subsetParity (bitIndices n (s / 2)) (x / 2) <;>
      simp [hs, hp, subsetParity_nil]

theorem walshChar_two_mul (n t x : ℕ) :
    walshChar (n + 1) (2 * t) x = walshChar n t (x / 2) := by
  have h0 : (2 * t).testBit 0 = false := by
    simp [Nat.testBit_zero, Nat.mul_mod_right]
  have h2 : 2 * t / 2 = t := by omega
  rw [walshChar_succ, h0, h2]
  simp

theorem walshChar_two_mul_add_one (n t x : ℕ) :
    walshChar (n + 1) (2 * t + 1) x =
      (if x.testBit 0 then (-1 : ℝ) else 1) * walshChar n t (x / 2) := by
  have h0 : (2 * t + 1).testBit 0 = true := by
    simp [Nat.testBit_zero, Nat.mul_add_mod]
  have h2 : (2 * t + 1) / 2 = t := by omega
  rw [walshChar_succ, h0, h2]
  simp

theorem sum_range_two_mul (m : ℕ) (f : ℕ → ℝ) :
    ∑ s ∈ Finset.range (2 * m), f s =
      ∑ t ∈ Finset.range m, (f (2 * t) + f (2 * t + 1)) := by
  induction m with
  | zero => simp
  | succ m ih =>
      have h1 : 2 * (m + 1) = (2 * m + 1) + 1 := by ring
      rw [h1, Finset.sum_range_succ f (2 * m + 1), Finset.sum_range_succ f (2 * m), ih,
        Finset.sum_range_succ, add_assoc]

theorem walshChar_orthogonal (n : ℕ) :
    ∀ x y, x < 2 ^ n → y < 2 ^ n →
      (∑ s ∈ Finset.range (2 ^ n), walshChar n s x * walshChar n s y) =
        if x = y then (2 ^ n : ℝ) else 0 := by
  induction n with
  | zero =>
      intro x y hx hy
      have hx0 : x = 0 := by simpa using hx
      have hy0 : y = 0 := by simpa using hy
      subst hx0; subst hy0
      simp [Finset.sum_range_one, walshChar_zero]
  | succ n ih =>
      intro x y hx hy
      have h2 : 2 ^ (n + 1) = 2 * 2 ^ n := by ring
      have hx' : x < 2 * 2 ^ n := by rw [← h2]; exact hx
      have hy' : y < 2 * 2 ^ n := by rw [← h2]; exact hy
      have hx2 : x / 2 < 2 ^ n := by omega
      have hy2 : y / 2 < 2 ^ n := by omega
      rw [h2, sum_range_two_mul]
      have hterm : ∀ t,
          walshChar (n + 1) (2 * t) x * walshChar (n + 1) (2 * t) y +
            walshChar (n + 1) (2 * t + 1) x * walshChar (n + 1) (2 * t + 1) y =
          ((1 : ℝ) + (if x.testBit 0 then (-1 : ℝ) else 1) *
              (if y.testBit 0 then (-1 : ℝ) else 1)) *
            (walshChar n t (x / 2) * walshChar n t (y / 2)) := by
        intro t
        rw [walshChar_two_mul, walshChar_two_mul, walshChar_two_mul_add_one,
          walshChar_two_mul_add_one]
        ring
      rw [Finset.sum_congr rfl (fun t _ => hterm t), ← Finset.mul_sum,
        ih (x / 2) (y / 2) hx2 hy2]
      by_cases hxy : x = y
      · subst hxy
        rw [if_pos rfl, if_pos rfl]
        by_cases hb : x.testBit 0 <;> simp [hb] <;> ring
      · rw [if_neg hxy]
        by_cases hd : x / 2 = y / 2
        · have hmod : x % 2 ≠ y % 2 := by omega
          have hbx : x.testBit 0 = decide (x % 2 = 1) := Nat.testBit_zero x
          have hby : y.testBit 0 = decide (y % 2 = 1) := Nat.testBit_zero y
          rw [if_pos hd, hbx, hby]
          rcases Nat.mod_two_eq_zero_or_one x with h1 | h1 <;>
            rcases Nat.mod_two_eq_zero_or_one y with h2 | h2 <;>
              rw [h1, h2] at hmod ⊢ <;> first
                | exact absurd rfl hmod
                | (norm_num)
        · rw [if_neg hd, mul_zero]

theorem walsh_inversion (n : ℕ) (θ : ℕ → ℝ) (x : ℕ) (hx : x < 2 ^ n) :
    ∑ s ∈ Finset.range (2 ^ n), walshCoeff n θ s * walshChar n s x = θ x := by
  have hpow : (0 : ℝ) < 2 ^ n := by positivity
  calc ∑ s ∈ Finset.range (2 ^ n), walshCoeff n θ s * walshChar n s x
      = ∑ s ∈ Finset.range (2 ^ n), ∑ y ∈ Finset.range (2 ^ n),
          θ y * (walshChar n s y * walshChar n s x) / 2 ^ n := by
        apply Finset.sum_congr rfl
        intro s _
        rw [walshCoeff, div_mul_eq_mul_div, Finset.sum_mul, Finset.sum_div]
        apply Finset.sum_congr rfl
        intro y _
        ring
    _ = ∑ y ∈ Finset.range (2 ^ n), ∑ s ∈ Finset.range (2 ^ n),
          θ y * (walshChar n s y * walshChar n s x) / 2 ^ n := Finset.sum_comm
    _ = ∑ y ∈ Finset.range (2 ^ n),
          θ y * (∑ s ∈ Finset.range (2 ^ n), walshChar n s y * walshChar n s x) / 2 ^ n := by
        apply Finset.sum_congr rfl
        intro y _
        rw [Finset.mul_sum, Finset.sum_div]
    _ = θ x := by
        rw [Finset.sum_congr rfl (fun y hy => by
          rw [walshChar_orthogonal n y x (Finset.mem_range.mp hy) hx])]
        have hsimp : ∀ y ∈ Finset.range (2 ^ n),
            θ y * (if y = x then (2 ^ n : ℝ) else 0) / 2 ^ n =
              if y = x then θ y else 0 := by
          intro y _
          by_cases hyx : y = x
          · rw [if_pos hyx, if_pos hyx, mul_div_assoc, div_self hpow.ne', mul_one]
          · rw [if_neg hyx, if_neg hyx, mul_zero, zero_div]
        rw [Finset.sum_congr rfl hsimp, Finset.sum_ite_eq' (Finset.range (2 ^ n)) x θ,
          if_pos (Finset.mem_range.mpr hx)]

theorem circPerm_append (c₁ c₂ : List Gate) (x : ℕ) :
    circPerm (c₁ ++ c₂) x = circPerm c₂ (circPerm c₁ x) := by
  induction c₁ generalizing x with
  | nil => rfl
  | cons g c ih =>
      rw [List.cons_append]
      exact ih (gatePerm g x)

theorem circPhase_append (c₁ c₂ : List Gate) (x : ℕ) :
    circPhase (c₁ ++ c₂) x = circPhase c₁ x * circPhase c₂ (circPerm c₁ x) := by
  induction c₁ generalizing x with
  | nil =>
      show circPhase c₂ x = 1 * circPhase c₂ x
      rw [one_mul]
  | cons g c ih =>
      show gatePhase g x * circPhase (c ++ c₂) (gatePerm g x) = _
      rw [ih]
      show _ = gatePhase g x * circPhase c (gatePerm g x) *
        circPhase c₂ (circPerm c (gatePerm g x))
      ring

theorem gatePerm_cnot_of_testBit (j q x : ℕ) (hb : x.testBit j) :
    gatePerm (Gate.CNOT j q) x = x ^^^ (1 <<< q) := by
  simp [gatePerm, bitAt_eq, hb]

theorem gatePerm_cnot_of_not_testBit (j q x : ℕ) (hb : x.testBit j = false) :
    gatePerm (Gate.CNOT j q) x = x := by
  simp [gatePerm, bitAt_eq, hb]

theorem circPerm_stair (rest : List ℕ) (q : ℕ) (hq : ∀ j ∈ rest, j ≠ q) (x : ℕ) :
    circPerm (rest.map (fun j => Gate.CNOT j q)) x =
      if subsetParity rest x then x ^^^ (1 <<< q) else x := by
  induction rest generalizing x with
  | nil => simp [circPerm, subsetParity_nil]
  | cons j rest ih =>
      have hqj : j ≠ q := hq j (List.mem_cons_self j rest)
      have hqr : ∀ j' ∈ rest, j' ≠ q := fun j' h' => hq j' (List.mem_cons_of_mem _ h')
      rw [List.map_cons]
      have hstep : circPerm (Gate.CNOT j q :: rest.map (fun j => Gate.CNOT j q)) x =
          circPerm (rest.map (fun j => Gate.CNOT j q)) (gatePerm (Gate.CNOT j q) x) := rfl
      rw [hstep, subsetParity_cons]
      by_cases hb : x.testBit j
      · rw [gatePerm_cnot_of_testBit j q x hb, ih hqr,
          subsetParity_congr rest (x ^^^ (1 <<< q)) x
            (fun j' hj' => testBit_xor_shift x q j' (hqr j' hj')), hb]
        by_cases hp : subsetParity rest x
        · rw [hp, if_pos rfl]
          show x ^^^ (1 <<< q) ^^^ (1 <<< q) = if (true ^^ true) = true then _ else x
          rw [Nat.xor_assoc, Nat.xor_self, Nat.xor_zero]
          simp
        · rw [Bool.not_eq_true] at hp
          rw [hp, if_neg (by simp)]
          simp
      · rw [Bool.not_eq_true] at hb
        rw [gatePerm_cnot_of_not_testBit j q x hb, ih hqr, hb]
        simp

theorem circPhase_stair (rest : List ℕ) (q : ℕ) (x : ℕ) :
    circPhase (rest.map (fun j => Gate.CNOT j q)) x = 1 := by
  induction rest generalizing x with
  | nil => rfl
  | cons j rest ih =>
      show gatePhase (Gate.CNOT j q) x *
        circPhase (rest.map (fun j => Gate.CNOT j q)) (gatePerm (Gate.CNOT j q) x) = 1
      rw [ih]
      simp [gatePhase]


theorem circPerm_rz (a : ℝ) (q y : ℕ) : circPerm [Gate.RZ a q] y = y := rfl

theorem circPhase_rz (a : ℝ) (q : ℕ) (y : ℕ) :
    circPhase [Gate.RZ a q] y = gatePhase (Gate.RZ a q) y := by
  show gatePhase (Gate.RZ a q) y * 1 = _
  rw [mul_one]

theorem walshBlock_eval (n : ℕ) (θ : ℕ → ℝ) (s : ℕ) (h1 : 1 ≤ s) (h2 : s < 2 ^ n)
    (x : ℕ) :
    circPerm (walshBlock n θ s) x = x ∧
      circPhase (walshBlock n θ s) x =
        Complex.exp (Complex.I * ((walshCoeff n θ s * walshChar n s x : ℝ) : ℂ)) := by
  cases hbs : bitIndices n s with
  | nil => exact absurd hbs (bitIndices_ne_nil n s h1 h2)
  | cons q rest =>
      have hpw := bitIndices_pairwise n s
      rw [hbs, List.pairwise_cons] at hpw
      have hne : ∀ j ∈ rest, j ≠ q := fun j hj => (hpw.1 j hj).ne'
      have hneR : ∀ j ∈ rest.reverse, j ≠ q := fun j hj => hne j (List.mem_reverse.mp hj)
      have hblock : walshBlock n θ s =
          (rest.map (fun j => Gate.CNOT j q) ++ [Gate.RZ (2 * walshCoeff n θ s) q])
            ++ rest.reverse.map (fun j => Gate.CNOT j q) := by
        unfold walshBlock
        rw [hbs]
      set a := walshCoeff n θ s with ha
      have hp1 : circPerm (rest.map (fun j => Gate.CNOT j q)) x =
          if subsetParity rest x then x ^^^ (1 <<< q) else x := circPerm_stair rest q hne x
      have hbitsp : subsetParity rest (if subsetParity rest x then x ^^^ (1 <<< q) else x)
          = subsetParity rest x := by
        by_cases hp : subsetParity rest x
        · rw [if_pos hp]
          exact subsetParity_congr rest _ x
            (fun j hj => testBit_xor_shift x q j (hne j hj))
        · rw [if_neg hp]
      have hbitq : (if subsetParity rest x then x ^^^ (1 <<< q) else x).testBit q
          = xor (x.testBit q) (subsetParity rest x) := by
        by_cases hp : subsetParity rest x
        · rw [if_pos hp, hp, Bool.xor_true, Nat.shiftLeft_eq, one_mul,
            Nat.testBit_xor, Nat.testBit_two_pow_self]
          cases x.testBit q <;> rfl
        · rw [Bool.not_eq_true] at hp
          rw [if_neg (by simp [hp]), hp, Bool.xor_false]
      constructor
      · rw [hblock, circPerm_append, circPerm_append, hp1, circPerm_rz,
          circPerm_stair rest.reverse q hneR, subsetParity_reverse, hbitsp]
        by_cases hp : subsetParity rest x
        · rw [if_pos hp, if_pos hp, Nat.xor_assoc, Nat.xor_self, Nat.xor_zero]
        · rw [if_neg hp, if_neg hp]
      · rw [hblock, circPhase_append, circPhase_append, circPhase_stair, one_mul,
          circPhase_stair, mul_one, circPhase_rz, hp1]
        have hchar : walshChar n s x =
            if xor (x.testBit q) (subsetParity rest x) then (-1 : ℝ) else 1 := by
          rw [walshChar, hbs, subsetParity_cons]
        by_cases hxp : xor (x.testBit q) (subsetParity rest x) = true
        · have hba : bitAt (if subsetParity rest x then x ^^^ (1 <<< q) else x) q = 1 := by
            simp [bitAt_eq, hbitq, hxp]
          simp only [gatePhase]
          rw [if_pos hba, hchar, hxp, if_pos rfl]
          congr 1
          push_cast
          ring
        · rw [Bool.not_eq_true] at hxp
          have hba : bitAt (if subsetParity rest x then x ^^^ (1 <<< q) else x) q = 0 := by
            simp [bitAt_eq, hbitq, hxp]
          simp only [gatePhase]
          rw [if_neg (by simp [hba]), hchar, hxp, if_neg Bool.false_ne_true]
          congr 1
          push_cast
          ring

theorem walsh_flatMap_eval (n : ℕ) (θ : ℕ → ℝ) (S : List ℕ)
    (hS : ∀ s ∈ S, 1 ≤ s ∧ s < 2 ^ n) (x : ℕ) :
    circPerm (S.flatMap (walshBlock n θ)) x = x ∧
      circPhase (S.flatMap (walshBlock n θ)) x =
        Complex.exp (Complex.I *
          (((S.map (fun s => walshCoeff n θ s * walshChar n s x)).sum : ℝ) : ℂ)) := by
  induction S with
  | nil =>
      constructor
      · rfl
      · show (1 : ℂ) = _
        rw [List.map_nil, List.sum_nil]
        norm_num
  | cons s S ih =>
      have hs := hS s (List.mem_cons_self s S)
      have hrest : ∀ s' ∈ S, 1 ≤ s' ∧ s' < 2 ^ n :=
        fun s' h' => hS s' (List.mem_cons_of_mem _ h')
      have hblock := walshBlock_eval n θ s hs.1 hs.2 x
      rw [List.flatMap_cons]
      constructor
      · rw [circPerm_append, hblock.1, (ih hrest).1]
      · rw [circPhase_append, hblock.1, hblock.2, (ih hrest).2,
          List.map_cons, List.sum_cons, ← Complex.exp_add]
        congr 1
        push_cast
        ring

theorem walshBlock_targetOk (n : ℕ) (θ : ℕ → ℝ) (s : ℕ) :
    ∀ g ∈ walshBlock n θ s, g.targetOk n := by
  cases hbs : bitIndices n s with
  | nil =>
      have hnil : walshBlock n θ s = [] := by
        unfold walshBlock
        rw [hbs]
      intro g hg
      rw [hnil] at hg
      exact absurd hg (List.not_mem_nil g)
  | cons q rest =>
      have hq : q < n := (mem_bitIndices.mp (hbs ▸ List.mem_cons_self q rest)).1
      have hblock : walshBlock n θ s =
          (rest.map (fun j => Gate.CNOT j q) ++ [Gate.RZ (2 * walshCoeff n θ s) q])
            ++ rest.reverse.map (fun j => Gate.CNOT j q) := by
        unfold walshBlock
        rw [hbs]
      intro g hg
      rw [hblock] at hg
      rcases List.mem_append.mp hg with hg' | hg'
      · rcases List.mem_append.mp hg' with hg'' | hg''
        · obtain ⟨j, _, rfl⟩ := List.mem_map.mp hg''
          exact hq
        · rw [List.mem_singleton] at hg''
          subst hg''
          trivial
      · obtain ⟨j, _, rfl⟩ := List.mem_map.mp hg'
        exact hq

/-- Evaluating the modelled Walsh synthesizer reconstructs the diagonal
unitary up to the dropped global phase `exp (-I a₀)`, where `a₀` is the
mean of the diagonal phase angles (the Walsh coefficient of the empty
subset). -/
theorem build_optimal_walsh_circuit_eval (n : ℕ) (θ : ℕ → ℝ) :
    gates_to_matrix (build_optimal_walsh_circuit n θ) n =
      Complex.exp (-(Complex.I * ((walshCoeff n θ 0 : ℝ) : ℂ))) •
        Matrix.diagonal (fun x : Fin (2 ^ n) =>
          Complex.exp (Complex.I * ((θ x.val : ℝ) : ℂ))) := by
  have hpos : 0 < 2 ^ n := Nat.one_le_two_pow
  have hk : 2 ^ n = (2 ^ n - 1) + 1 := by omega
  have hdrop : (List.range (2 ^ n)).drop 1 = (List.range (2 ^ n - 1)).map Nat.succ := by
    rw [hk, List.range_succ_eq_map]
    rfl
  have hS : ∀ s ∈ (List.range (2 ^ n)).drop 1, 1 ≤ s ∧ s < 2 ^ n := by
    intro s hs
    rw [hdrop] at hs
    obtain ⟨i, hi, rfl⟩ := List.mem_map.mp hs
    have := List.mem_range.mp hi
    omega
  have htot : ∀ g ∈ build_optimal_walsh_circuit n θ, g.targetOk n := by
    intro g hg
    rw [build_optimal_walsh_circuit] at hg
    obtain ⟨s, _, hgs⟩ := List.mem_flatMap.mp hg
    exact walshBlock_targetOk n θ s g hgs
  rw [gates_to_matrix_eq_sim _ _ htot]
  funext r i
  have hev := walsh_flatMap_eval n θ _ hS i.val
  have hconv : ∀ (k : ℕ) (f : ℕ → ℝ),
      ((List.range k).map f).sum = ∑ j ∈ Finset.range k, f j := by
    intro k f
    induction k with
    | zero => simp
    | succ k ih =>
        rw [List.range_succ, List.map_append, List.sum_append, Finset.sum_range_succ, ih]
        simp
  have hsum : (((List.range (2 ^ n)).drop 1).map
      (fun s => walshCoeff n θ s * walshChar n s i.val)).sum
      = θ i.val - walshCoeff n θ 0 := by
    rw [hdrop, List.map_map, hconv]
    have hsplit := Finset.sum_range_succ'
      (fun s => walshCoeff n θ s * walshChar n s i.val) (2 ^ n - 1)
    rw [← hk, walsh_inversion n θ i.val i.isLt, walshChar_zero, mul_one] at hsplit
    have hfun : ((fun s => walshCoeff n θ s * walshChar n s i.val) ∘ Nat.succ)
        = fun j => walshCoeff n θ (j + 1) * walshChar n (j + 1) i.val := by
      funext j
      rfl
    rw [hfun]
    linarith
  have hcirc : build_optimal_walsh_circuit n θ
      = ((List.range (2 ^ n)).drop 1).flatMap (walshBlock n θ) := rfl
  simp only [simMatrix, hcirc, Matrix.smul_apply, Matrix.diagonal_apply, smul_eq_mul]
  rw [hev.1]
  by_cases hri : r = i
  · subst hri
    rw [if_pos rfl, if_pos rfl, hev.2, hsum, ← Complex.exp_add]
    congr 1
    push_cast
    ring
  · have hrv : ¬ (r.val = i.val) := fun hv => hri (Fin.ext hv)
    rw [if_neg hrv, if_neg hri, mul_zero]

theorem gates_to_matrix_singleton (g : Gate) (n : ℕ) :
    gates_to_matrix [g] n = gateMatrix n g := by
  rw [gates_to_matrix_cons, gates_to_matrix_nil, Matrix.one_mul]

theorem gates_to_matrix_mulVec (c : List Gate) (n : ℕ) (v : Fin (2 ^ n) → ℂ) :
    (gates_to_matrix c n).mulVec v =
      c.foldl (fun w g => (gateMatrix n g).mulVec w) v := by
  induction c generalizing v with
  | nil =>
      rw [gates_to_matrix_nil, Matrix.one_mulVec]
      rfl
  | cons g c ih =>
      rw [gates_to_matrix_cons, ← Matrix.mulVec_mulVec, List.foldl_cons, ih]

theorem gates_to_matrix_rz (n : ℕ) (angle : ℝ) (qubit : ℕ) :
    gates_to_matrix [Gate.RZ angle qubit] n =
      Matrix.diagonal (fun i : Fin (2 ^ n) =>
        if bitAt i.val qubit = 1 then Complex.exp (-(Complex.I * angle) / 2)
        else Complex.exp ((Complex.I * angle) / 2)) := by
  rw [gates_to_matrix_singleton]
  funext r i
  rw [Matrix.diagonal_apply]
  simp only [gateMatrix]
  by_cases h : r = i
  · subst h
    rw [if_pos rfl]
  · rw [if_neg h, if_neg h]

theorem gateMatrix_mulVec_single (n : ℕ) (g : Gate) (i : Fin (2 ^ n)) :
    (gateMatrix n g).mulVec (fun j => if j = i then 1 else 0) =
      fun r => if r.val = gatePerm g i.val then gatePhase g i.val else 0 := by
  rw [gateMatrix_eq_sim, simMatrix_mulVec_single]

theorem gates_to_matrix_mulVec_single (c : List Gate) (n : ℕ)
    (h : ∀ g ∈ c, g.targetOk n) (i : Fin (2 ^ n)) :
    (gates_to_matrix c n).mulVec (fun j => if j = i then 1 else 0) =
      fun r => if r.val = circPerm c i.val then circPhase c i.val else 0 := by
  rw [gates_to_matrix_eq_sim c n h, simMatrix_mulVec_single]

/-- C1: for every circuit of CNOT and RZ gates whose qubit indices are in
`[0, n)` and whose CNOT controls are distinct from their targets, the
reverse-and-negate transform evaluates to the conjugate transpose of the
evaluation of the circuit. -/
theorem claim_C1_reverse_negate_dagger (c : List Gate) (n : ℕ) (h : validCircuit n c) :
    gates_to_matrix (reverse_and_negate c) n = (gates_to_matrix c n).conjTranspose :=
  reverse_and_negate_eval c n h

theorem claim_C1_reverse_negate_dagger_witness :
    validCircuit 2 [Gate.CNOT 0 1, Gate.RZ 1 0] ∧
      gates_to_matrix (reverse_and_negate [Gate.CNOT 0 1, Gate.RZ 1 0]) 2 =
        (gates_to_matrix [Gate.CNOT 0 1, Gate.RZ 1 0] 2).conjTranspose := by
  have hv : validCircuit 2 [Gate.CNOT 0 1, Gate.RZ 1 0] := by
    intro g hg
    rcases List.mem_cons.mp hg with rfl | hg'
    · exact ⟨by norm_num, by norm_num, by norm_num⟩
    · rcases List.mem_cons.mp hg' with rfl | hg''
      · show (0 : ℕ) < 2
        norm_num
      · exact absurd hg'' (List.not_mem_nil g)
  exact ⟨hv, claim_C1_reverse_negate_dagger _ _ hv⟩

/-- C4: the evaluator returns the left-multiplied product in list order,
`gates_to_matrix [g_1, ..., g_k] = M(g_k) * ... * M(g_1)`, i.e. the product
of the gate matrices in reversed list order. -/
theorem claim_C4_product_order (c : List Gate) (n : ℕ) :
    gates_to_matrix c n = ((c.map (gateMatrix n)).reverse).prod :=
  gates_to_matrix_eq_prod c n

/-- C9: the driver accepts a reconstruction exactly when the maximum
absolute element-wise difference is below `1e-6` — equivalently, when every
entry differs by less than `1e-6` — and the relative error is that maximum
difference divided by the maximum entry magnitude of the original matrix. -/
theorem claim_C9_accuracy_criterion (n : ℕ)
    (U V : Matrix (Fin (2 ^ n)) (Fin (2 ^ n)) ℂ) :
    (is_accurate n U V ↔ ∀ r i, Complex.abs (U r i - V r i) < 1e-6) ∧
      relative_error n U V = difference n U V / max_abs n U := by
  constructor
  · rw [is_accurate, difference, Finset.sup'_lt_iff]
    constructor
    · intro h r i
      exact h (r, i) (Finset.mem_univ _)
    · intro h p _
      exact h p.1 p.2
  · rfl

/-- C10: the evaluator maps the empty circuit to the identity matrix, the
unit of the evaluator: prepending or appending an empty circuit never
changes the result. -/
theorem claim_C10_empty_circuit (n : ℕ) (c : List Gate) :
    gates_to_matrix [] n = 1 ∧
      gates_to_matrix ([] ++ c) n = gates_to_matrix c n ∧
      gates_to_matrix (c ++ []) n = gates_to_matrix c n := by
  refine ⟨gates_to_matrix_nil n, ?_, ?_⟩
  · rw [List.nil_append]
  · rw [List.append_nil]

/-- C2: for distinct in-range control and target, the matrix the evaluator
builds for a single CNOT gate fixes every basis vector whose control bit is
0 and sends every basis vector whose control bit is 1 to the basis vector
with the target bit flipped. -/
theorem claim_C2_cnot_action (n control target : ℕ) (hc : control < n)
    (ht : target < n) (hne : control ≠ target) (i : Fin (2 ^ n)) :
    (bitAt i.val control = 0 →
      (gates_to_matrix [Gate.CNOT control target] n).mulVec
          (fun j => if j = i then 1 else 0) =
        fun j => if j = i then 1 else 0) ∧
    (bitAt i.val control = 1 →
      (gates_to_matrix [Gate.CNOT control target] n).mulVec
          (fun j => if j = i then 1 else 0) =
        fun j => if j = flipBit n target ht i then 1 else 0) := by
  rw [gates_to_matrix_singleton, gateMatrix_mulVec_single]
  constructor
  · intro h0
    have hp : gatePerm (Gate.CNOT control target) i.val = i.val := by
      simp [gatePerm, h0]
    funext j
    rw [hp]
    simp [gatePhase, Fin.val_eq_val]
  · intro h1
    have hp : gatePerm (Gate.CNOT control target) i.val = i.val ^^^ (1 <<< target) := by
      simp [gatePerm, h1]
    funext j
    rw [hp]
    simp only [gatePhase]
    by_cases hj : j.val = i.val ^^^ (1 <<< target)
    · rw [if_pos hj, if_pos (Fin.ext hj)]
    · rw [if_neg hj, if_neg (fun he => hj (congrArg Fin.val he))]

theorem claim_C2_cnot_action_witness :
    (0 : ℕ) < 2 ∧ (1 : ℕ) < 2 ∧ (0 : ℕ) ≠ 1 ∧
      ((bitAt (1 : Fin (2 ^ 2)).val 0 = 0 →
        (gates_to_matrix [Gate.CNOT 0 1] 2).mulVec
            (fun j => if j = (1 : Fin (2 ^ 2)) then 1 else 0) =
          fun j => if j = (1 : Fin (2 ^ 2)) then 1 else 0) ∧
      (bitAt (1 : Fin (2 ^ 2)).val 0 = 1 →
        (gates_to_matrix [Gate.CNOT 0 1] 2).mulVec
            (fun j => if j = (1 : Fin (2 ^ 2)) then 1 else 0) =
          fun j => if j = flipBit 2 1 (by norm_num) (1 : Fin (2 ^ 2)) then 1 else 0)) :=
  ⟨by norm_num, by norm_num, by norm_num,
    claim_C2_cnot_action 2 0 1 (by norm_num) (by norm_num) (by norm_num) 1⟩

/-- C3: for an in-range qubit index, the matrix the evaluator builds for a
single RZ gate is diagonal with entry `exp(-I*angle/2)` on basis indices
whose qubit bit is 1 and `exp(I*angle/2)` where it is 0; in particular
`RZ 0` evaluates to the identity. -/
theorem claim_C3_rz_diagonal (n : ℕ) (angle : ℝ) (qubit : ℕ) (hq : qubit < n) :
    gates_to_matrix [Gate.RZ angle qubit] n =
      Matrix.diagonal (fun i : Fin (2 ^ n) =>
        if bitAt i.val qubit = 1 then Complex.exp (-(Complex.I * angle) / 2)
        else Complex.exp ((Complex.I * angle) / 2)) ∧
      gates_to_matrix [Gate.RZ 0 qubit] n = 1 := by
  refine ⟨gates_to_matrix_rz n angle qubit, ?_⟩
  rw [gates_to_matrix_rz]
  have hone : ∀ i : Fin (2 ^ n),
      (if bitAt i.val qubit = 1 then Complex.exp (-(Complex.I * ((0 : ℝ) : ℂ)) / 2)
        else Complex.exp ((Complex.I * ((0 : ℝ) : ℂ)) / 2)) = 1 := by
    intro i
    by_cases h : bitAt i.val qubit = 1
    · rw [if_pos h]
      norm_num
    · rw [if_neg h]
      norm_num
  rw [show (fun i : Fin (2 ^ n) =>
      if bitAt i.val qubit = 1 then Complex.exp (-(Complex.I * ((0 : ℝ) : ℂ)) / 2)
      else Complex.exp ((Complex.I * ((0 : ℝ) : ℂ)) / 2)) = fun _ => (1 : ℂ) from
    funext hone, Matrix.diagonal_one]

theorem claim_C3_rz_diagonal_witness :
    (0 : ℕ) < 1 ∧
      (gates_to_matrix [Gate.RZ 1 0] 1 =
        Matrix.diagonal (fun i : Fin (2 ^ 1) =>
          if bitAt i.val 0 = 1 then Complex.exp (-(Complex.I * (1 : ℝ)) / 2)
          else Complex.exp ((Complex.I * (1 : ℝ)) / 2)) ∧
      gates_to_matrix [Gate.RZ 0 0] 1 = 1) :=
  ⟨by norm_num, claim_C3_rz_diagonal 1 1 0 (by norm_num)⟩

/-- C5 counterexample: a circuit over the evaluator's gate set whose CNOT has
equal control and target (legal "circuit content" under the claim's
quantification) evaluates to a non-unitary matrix: for `CNOT(0,0)` on one
qubit the evaluator returns `[[1,1],[0,0]]`. -/
theorem claim_C5_counterexample :
    ¬ (gates_to_matrix [Gate.CNOT 0 0] 1 *
        (gates_to_matrix [Gate.CNOT 0 0] 1).conjTranspose = 1) := by
  intro h
  have hsim := gates_to_matrix_eq_sim [Gate.CNOT 0 0] 1 (by
    intro g hg
    rcases List.mem_cons.mp hg with rfl | hg'
    · show (0 : ℕ) < 1
      norm_num
    · exact absurd hg' (List.not_mem_nil g))
  rw [hsim] at h
  have h11 := congrFun (congrFun h ⟨1, by norm_num⟩) ⟨1, by norm_num⟩
  rw [Matrix.mul_apply] at h11
  have hz : ∀ k : Fin (2 ^ 1),
      simMatrix 1 (circPerm [Gate.CNOT 0 0]) (circPhase [Gate.CNOT 0 0])
          ⟨1, by norm_num⟩ k *
        (simMatrix 1 (circPerm [Gate.CNOT 0 0])
          (circPhase [Gate.CNOT 0 0])).conjTranspose k ⟨1, by norm_num⟩ = 0 := by
    intro k
    have hk2 : k.val < 2 := k.isLt
    have hk : k.val = 0 ∨ k.val = 1 := by omega
    simp only [simMatrix]
    have hneg : ¬ ((1 : ℕ) = circPerm [Gate.CNOT 0 0] k.val) := by
      rcases hk with hk | hk <;> rw [hk] <;> decide
    rw [if_neg hneg, zero_mul]
  rw [Finset.sum_congr rfl (fun k _ => hz k), Finset.sum_const_zero,
    Matrix.one_apply_eq] at h11
  exact zero_ne_one h11

/-- C5 amended: the evaluator's result is unitary for every circuit whose
CNOT gates have in-range targets and control distinct from target; angles,
RZ qubit indices and CNOT control indices are otherwise arbitrary. -/
theorem claim_C5_unitarity (c : List Gate) (n : ℕ) (h : ∀ g ∈ c, g.unitaryOk n) :
    gates_to_matrix c n * (gates_to_matrix c n).conjTranspose = 1 :=
  gates_to_matrix_unitary c n h

theorem claim_C5_unitarity_witness :
    (∀ g ∈ [Gate.CNOT 0 1, Gate.RZ 1 0, Gate.CNOT 5 1], Gate.unitaryOk 2 g) ∧
      gates_to_matrix [Gate.CNOT 0 1, Gate.RZ 1 0, Gate.CNOT 5 1] 2 *
        (gates_to_matrix [Gate.CNOT 0 1, Gate.RZ 1 0, Gate.CNOT 5 1] 2).conjTranspose
        = 1 := by
  have hu : ∀ g ∈ [Gate.CNOT 0 1, Gate.RZ 1 0, Gate.CNOT 5 1], Gate.unitaryOk 2 g := by
    intro g hg
    rcases List.mem_cons.mp hg with rfl | hg'
    · exact ⟨by norm_num, by norm_num⟩
    · rcases List.mem_cons.mp hg' with rfl | hg''
      · trivial
      · rcases List.mem_cons.mp hg'' with rfl | hg'''
        · exact ⟨by norm_num, by norm_num⟩
        · exact absurd hg''' (List.not_mem_nil g)
  exact ⟨hu, claim_C5_unitarity _ _ hu⟩

/-- C6 counterexample (spec-modelled synthesizer): for the diagonal unitary
`D = -I` on one qubit (constant phase angle `π`), the synthesized circuit
evaluates to a matrix that differs from `D`; the constant (global-phase)
part of the angle vector is dropped by the Walsh expansion, and no circuit
of CNOT and RZ gates can produce it. -/
theorem claim_C6_counterexample :
    gates_to_matrix (build_optimal_walsh_circuit 1 (fun _ => Real.pi)) 1 ≠
      Matrix.diagonal (fun _ : Fin (2 ^ 1) =>
        Complex.exp (Complex.I * ((Real.pi : ℝ) : ℂ))) := by
  intro h
  have ha0 : walshCoeff 1 (fun _ => Real.pi) 0 = Real.pi := by
    rw [walshCoeff,
      Finset.sum_congr rfl (fun x _ => by rw [walshChar_zero, mul_one]),
      Finset.sum_const, Finset.card_range, nsmul_eq_mul]
    norm_num
  rw [build_optimal_walsh_circuit_eval, ha0] at h
  have h00 := congrFun (congrFun h ⟨0, by norm_num⟩) ⟨0, by norm_num⟩
  rw [Matrix.smul_apply, Matrix.diagonal_apply_eq, smul_eq_mul,
    ← Complex.exp_add] at h00
  rw [show -(Complex.I * ((Real.pi : ℝ) : ℂ)) + Complex.I * ((Real.pi : ℝ) : ℂ)
      = 0 from by ring, Complex.exp_zero] at h00
  rw [show Complex.I * ((Real.pi : ℝ) : ℂ) = ((Real.pi : ℝ) : ℂ) * Complex.I from
    mul_comm _ _, Complex.exp_pi_mul_I] at h00
  norm_num at h00

/-- C6 amended (spec-modelled synthesizer): evaluating the synthesized
circuit for the diagonal unitary with phase angles `θ` reconstructs the
matrix up to the dropped global phase `exp (-I * a₀)`, where `a₀` is the
Walsh coefficient of the empty subset (the mean of the phase angles); in
particular the reconstruction is exact whenever `a₀ = 0`. -/
theorem claim_C6_walsh_reconstruction (n : ℕ) (θ : ℕ → ℝ) :
    gates_to_matrix (build_optimal_walsh_circuit n θ) n =
      Complex.exp (-(Complex.I * ((walshCoeff n θ 0 : ℝ) : ℂ))) •
        Matrix.diagonal (fun x : Fin (2 ^ n) =>
          Complex.exp (Complex.I * ((θ x.val : ℝ) : ℂ))) :=
  build_optimal_walsh_circuit_eval n θ

/-- C7 counterexample: the first-listed gate is applied first, not last, to
a state vector.  For the circuit `[CNOT(0,1), RZ(π,1)]` on two qubits and
the basis state `e₁`, the evaluator's matrix applied to `e₁` differs from
the first-gate-applied-last product `M(g₁) * M(g₂)` applied to `e₁`. -/
theorem claim_C7_counterexample :
    ¬ ((gates_to_matrix [Gate.CNOT 0 1, Gate.RZ Real.pi 1] 2).mulVec
        (fun j : Fin (2 ^ 2) => if j = ⟨1, by norm_num⟩ then 1 else 0) =
      (([Gate.CNOT 0 1, Gate.RZ Real.pi 1].map (gateMatrix 2)).prod).mulVec
        (fun j : Fin (2 ^ 2) => if j = ⟨1, by norm_num⟩ then 1 else 0)) := by
  intro h
  have htok : ∀ g ∈ [Gate.CNOT 0 1, Gate.RZ Real.pi 1], Gate.targetOk 2 g := by
    intro g hg
    rcases List.mem_cons.mp hg with rfl | hg'
    · show (1 : ℕ) < 2
      norm_num
    · rcases List.mem_cons.mp hg' with rfl | hg''
      · trivial
      · exact absurd hg'' (List.not_mem_nil g)
  rw [gates_to_matrix_mulVec_single _ _ htok, List.map_cons, List.map_cons,
    List.map_nil, List.prod_cons, List.prod_cons, List.prod_nil, Matrix.mul_one,
    ← Matrix.mulVec_mulVec, gateMatrix_mulVec_single] at h
  have hrz : (fun r : Fin (2 ^ 2) =>
      if r.val = gatePerm (Gate.RZ Real.pi 1) ((⟨1, by norm_num⟩ : Fin (2 ^ 2)) : Fin (2 ^ 2)).val
      then gatePhase (Gate.RZ Real.pi 1) ((⟨1, by norm_num⟩ : Fin (2 ^ 2)) : Fin (2 ^ 2)).val
      else 0)
      = gatePhase (Gate.RZ Real.pi 1) 1 •
        (fun j : Fin (2 ^ 2) => if j = ⟨1, by norm_num⟩ then (1 : ℂ) else 0) := by
    funext r
    rw [show gatePerm (Gate.RZ Real.pi 1)
      ((⟨1, by norm_num⟩ : Fin (2 ^ 2)) : Fin (2 ^ 2)).val = 1 from rfl]
    by_cases hr : r.val = 1
    · rw [if_pos hr, Pi.smul_apply, if_pos (Fin.ext hr), smul_eq_mul, mul_one]
    · rw [if_neg hr, Pi.smul_apply, if_neg (fun he => hr (congrArg Fin.val he)),
        smul_eq_mul, mul_zero]
  rw [hrz, Matrix.mulVec_smul, gateMatrix_mulVec_single] at h
  have h3 := congrFun h ⟨3, by norm_num⟩
  rw [Pi.smul_apply, smul_eq_mul] at h3
  rw [if_pos (show ((⟨3, by norm_num⟩ : Fin (2 ^ 2)) : Fin (2 ^ 2)).val =
      circPerm [Gate.CNOT 0 1, Gate.RZ Real.pi 1]
        ((⟨1, by norm_num⟩ : Fin (2 ^ 2)) : Fin (2 ^ 2)).val from by decide),
    if_pos (show ((⟨3, by norm_num⟩ : Fin (2 ^ 2)) : Fin (2 ^ 2)).val =
      gatePerm (Gate.CNOT 0 1)
        ((⟨1, by norm_num⟩ : Fin (2 ^ 2)) : Fin (2 ^ 2)).val from by decide)] at h3
  rw [show gatePhase (Gate.CNOT 0 1)
      ((⟨1, by norm_num⟩ : Fin (2 ^ 2)) : Fin (2 ^ 2)).val = 1 from rfl, mul_one] at h3
  rw [show ((⟨1, by norm_num⟩ : Fin (2 ^ 2)) : Fin (2 ^ 2)).val = (1 : ℕ) from rfl] at h3
  have hL : circPhase [Gate.CNOT 0 1, Gate.RZ Real.pi 1] (1 : ℕ) =
      Complex.exp (-(Complex.I * ((Real.pi : ℝ) : ℂ)) / 2) := by
    show gatePhase (Gate.CNOT 0 1) 1 *
      circPhase [Gate.RZ Real.pi 1] (gatePerm (Gate.CNOT 0 1) 1) = _
    rw [show gatePerm (Gate.CNOT 0 1) 1 = 3 from by decide, circPhase_rz,
      show gatePhase (Gate.CNOT 0 1) 1 = 1 from rfl, one_mul]
    simp only [gatePhase]
    rw [if_pos (show bitAt 3 1 = 1 from by decide)]
  have hR : gatePhase (Gate.RZ Real.pi 1) 1 =
      Complex.exp ((Complex.I * ((Real.pi : ℝ) : ℂ)) / 2) := by
    simp only [gatePhase]
    rw [if_neg (show ¬ (bitAt 1 1 = 1) from by decide)]
  rw [hL, hR] at h3
  have h1 : Complex.exp ((Complex.I * ((Real.pi : ℝ) : ℂ)) / 2) *
      Complex.exp ((Complex.I * ((Real.pi : ℝ) : ℂ)) / 2) = -1 := by
    rw [← Complex.exp_add, show (Complex.I * ((Real.pi : ℝ) : ℂ)) / 2 +
      (Complex.I * ((Real.pi : ℝ) : ℂ)) / 2 = ((Real.pi : ℝ) : ℂ) * Complex.I from
      by ring, Complex.exp_pi_mul_I]
  nth_rewrite 1 [← h3] at h1
  rw [← Complex.exp_add, show -(Complex.I * ((Real.pi : ℝ) : ℂ)) / 2 +
    (Complex.I * ((Real.pi : ℝ) : ℂ)) / 2 = 0 from by ring, Complex.exp_zero] at h1
  norm_num at h1

/-- C7 amended: because the evaluator left-multiplies in list order, applying
the evaluated matrix to a state vector applies the first-listed gate first
(and the last-listed gate last). -/
theorem claim_C7_first_gate_acts_first (c : List Gate) (n : ℕ) (v : Fin (2 ^ n) → ℂ) :
    (gates_to_matrix c n).mulVec v =
      c.foldl (fun w g => (gateMatrix n g).mulVec w) v :=
  gates_to_matrix_mulVec c n v

/-- C8 counterexample: the evaluator performs no index validation.  On one
qubit, a circuit containing the out-of-range gate `RZ(0, 5)` (or a CNOT with
out-of-range control `CNOT(5, 0)`) evaluates to exactly the same matrix as
the empty circuit: the out-of-range gate is silently ignored and a matrix is
returned, with no error of any kind. -/
theorem claim_C8_counterexample :
    gates_to_matrix [Gate.RZ 0 5] 1 = gates_to_matrix [] 1 ∧
      gates_to_matrix [Gate.CNOT 5 0] 1 = gates_to_matrix [] 1 := by
  constructor
  · rw [gates_to_matrix_rz, gates_to_matrix_nil]
    have hone : ∀ i : Fin (2 ^ 1),
        (if bitAt i.val 5 = 1 then Complex.exp (-(Complex.I * ((0 : ℝ) : ℂ)) / 2)
          else Complex.exp ((Complex.I * ((0 : ℝ) : ℂ)) / 2)) = 1 := by
      intro i
      by_cases h : bitAt i.val 5 = 1
      · rw [if_pos h]
        norm_num
      · rw [if_neg h]
        norm_num
    rw [show (fun i : Fin (2 ^ 1) =>
        if bitAt i.val 5 = 1 then Complex.exp (-(Complex.I * ((0 : ℝ) : ℂ)) / 2)
        else Complex.exp ((Complex.I * ((0 : ℝ) : ℂ)) / 2)) = fun _ => (1 : ℂ) from
      funext hone, Matrix.diagonal_one]
  · rw [gates_to_matrix_singleton, gates_to_matrix_nil]
    funext r i
    simp only [gateMatrix]
    have hb : ¬ (bitAt i.val 5 = 1) := by
      have h2 : i.val < 2 := i.isLt
      have hk : i.val = 0 ∨ i.val = 1 := by omega
      rcases hk with hk | hk <;> rw [hk] <;> decide
    rw [if_neg hb, Matrix.one_apply]

/-- C8 amended: for every `n`, an `RZ` gate whose qubit index is `≥ n` is
silently evaluated as the global phase `exp(I*angle/2) • I` (its bit reads
as 0 on every basis index), and a `CNOT` gate whose control index is `≥ n`
is silently evaluated as the identity; in both cases the evaluator returns
a matrix instead of surfacing an error. -/
theorem claim_C8_out_of_range_ignored (n q ctrl t : ℕ) (angle : ℝ)
    (hq : n ≤ q) (hc : n ≤ ctrl) :
    gates_to_matrix [Gate.RZ angle q] n =
        Complex.exp ((Complex.I * (angle : ℂ)) / 2) • 1 ∧
      gates_to_matrix [Gate.CNOT ctrl t] n = 1 := by
  have hbit : ∀ (k : ℕ) (i : Fin (2 ^ n)), n ≤ k → ¬ (bitAt i.val k = 1) := by
    intro k i hk
    rw [bitAt_eq, Nat.testBit_lt_two_pow
      (lt_of_lt_of_le i.isLt (Nat.pow_le_pow_right (by norm_num) hk))]
    norm_num
  constructor
  · rw [gates_to_matrix_rz]
    funext r i
    rw [Matrix.diagonal_apply, Matrix.smul_apply, Matrix.one_apply, smul_eq_mul]
    by_cases hri : r = i
    · rw [if_pos hri, if_pos hri, if_neg (hbit q r hq), mul_one]
    · rw [if_neg hri, if_neg hri, mul_zero]
  · rw [gates_to_matrix_singleton]
    funext r i
    simp only [gateMatrix]
    rw [if_neg (hbit ctrl i hc), Matrix.one_apply]

theorem claim_C8_out_of_range_ignored_witness :
    (1 : ℕ) ≤ 5 ∧ (1 : ℕ) ≤ 7 ∧
      (gates_to_matrix [Gate.RZ 2 5] 1 =
          Complex.exp ((Complex.I * ((2 : ℝ) : ℂ)) / 2) • 1 ∧
        gates_to_matrix [Gate.CNOT 7 0] 1 = 1) :=
  ⟨by norm_num, by norm_num,
    claim_C8_out_of_range_ignored 1 5 7 0 2 (by norm_num) (by norm_num)⟩
